import Mathlib

/-!
Verification of the gomor memory subsystem (vector utilities, persistent
store search, hybrid retrieval with fusion ranking, FTS tokenization, and
the reindex retry pipeline) against its natural-language specification.

Modelling conventions:
* Go `float64` / `float32` values are modelled as exact rationals (`ℚ`).
  The source's arithmetic (`+`, `*`, `/`, comparisons, literals such as
  `0.6 = 3/5`) is translated verbatim into `ℚ` arithmetic.
* `math.Sqrt` is not rational, so functions that call it
  (`NormalizeVector`, and `SearchMemories` which normalizes the query)
  take the square root of the sum of squares as an explicit parameter
  `sqrtNorm`; theorems constrain it by `sqrtNorm * sqrtNorm = sumSquares v`.
* The byte-serialization pair `VectorToBytes`/`BytesToVector` operates on
  IEEE-754 bit patterns (`math.Float32bits`); vectors are modelled by the
  bit patterns of their components, i.e. naturals below `2^32`, and bytes
  by naturals below `256` in little-endian order, exactly as the source.
* Go `nil` slices are modelled as `[]`.
-/

namespace Gomor

/-! ### Vector utilities (internal/memory/vector.go) -/

/-- Sum of squares of the components, the quantity whose square root the Go
code takes as the L2 norm (`sumSquares` accumulator in `NormalizeVector`). -/
def sumSquares (v : List ℚ) : ℚ :=
  (v.map fun x => x * x).sum

/-- `NormalizeVector` from vector.go. The Go code computes
`norm := math.Sqrt(sumSquares)`; here the norm is the parameter `sqrtNorm`
(constrained in theorems by `sqrtNorm * sqrtNorm = sumSquares v`).
Returns the input unchanged when it is empty or the norm is zero, else
divides every component by the norm. -/
def NormalizeVector (sqrtNorm : ℚ) (v : List ℚ) : List ℚ :=
  if v = [] then v
  else if sqrtNorm = 0 then v
  else v.map fun x => x / sqrtNorm

/-- `DotProduct` from vector.go: returns 0 when the lengths differ,
otherwise the sum of componentwise products. -/
def DotProduct (a b : List ℚ) : ℚ :=
  if a.length ≠ b.length then 0
  else (List.zipWith (fun x y => x * y) a b).sum

/-- `VectorToBytes` from vector.go: each component's 32-bit pattern is laid
out as 4 little-endian bytes (`binary.LittleEndian.PutUint32`). -/
def VectorToBytes : List ℕ → List ℕ
  | [] => []
  | x :: rest =>
    x % 256 :: x / 256 % 256 :: x / 65536 % 256 :: x / 16777216 % 256 ::
      VectorToBytes rest

/-- Decoding loop of `BytesToVector`: reads groups of 4 little-endian bytes
(`binary.LittleEndian.Uint32`). -/
def bytesToVectorAux : List ℕ → List ℕ
  | b0 :: b1 :: b2 :: b3 :: rest =>
    (b0 + 256 * b1 + 65536 * b2 + 16777216 * b3) :: bytesToVectorAux rest
  | _ => []

/-- `BytesToVector` from vector.go: yields `[]` (Go `nil`) when the byte
length is not a multiple of 4, else decodes 4 bytes per component. -/
def BytesToVector (b : List ℕ) : List ℕ :=
  if b.length % 4 ≠ 0 then [] else bytesToVectorAux b

lemma length_VectorToBytes (v : List ℕ) :
    (VectorToBytes v).length = 4 * v.length := by
  induction v with
  | nil => rfl
  | cons x rest ih => simp [VectorToBytes, ih]; ring

lemma bytesToVectorAux_VectorToBytes (v : List ℕ)
    (hv : ∀ x ∈ v, x < 4294967296) :
    bytesToVectorAux (VectorToBytes v) = v := by
  induction v with
  | nil => rfl
  | cons x rest ih =>
    have hx : x < 4294967296 := hv x (List.mem_cons_self x rest)
    have hrest : ∀ y ∈ rest, y < 4294967296 := fun y hy =>
      hv y (List.mem_cons_of_mem x hy)
    simp only [VectorToBytes, bytesToVectorAux, ih hrest, List.cons.injEq,
      and_true]
    omega

/-- C9: for every float32 vector (modelled by the 32-bit patterns of its
components), `BytesToVector (VectorToBytes v) = v`, and `BytesToVector` of
a byte slice whose length is not a multiple of 4 yields the empty (Go nil)
result rather than an error. -/
theorem vector_bytes_roundtrip :
    (∀ v : List ℕ, (∀ x ∈ v, x < 4294967296) →
      BytesToVector (VectorToBytes v) = v) ∧
    (∀ b : List ℕ, b.length % 4 ≠ 0 → BytesToVector b = []) := by
  constructor
  · intro v hv
    have hlen : (VectorToBytes v).length % 4 = 0 := by
      rw [length_VectorToBytes]; omega
    rw [BytesToVector, if_neg (by simp [hlen])]
    exact bytesToVectorAux_VectorToBytes v hv
  · intro b hb
    simp [BytesToVector, hb]

/-- Witness for C9 at concrete inputs: a two-component vector round-trips,
and a 3-byte input decodes to the empty vector. -/
theorem vector_bytes_roundtrip_witness :
    BytesToVector (VectorToBytes [1, 4294967295]) = [1, 4294967295] ∧
    BytesToVector [1, 2, 3] = [] :=
  ⟨vector_bytes_roundtrip.1 [1, 4294967295] (by decide),
   vector_bytes_roundtrip.2 [1, 2, 3] (by decide)⟩

lemma sumSquares_map_div (v : List ℚ) (r : ℚ) :
    sumSquares (v.map fun x => x / r) = sumSquares v / (r * r) := by
  induction v with
  | nil => simp [sumSquares]
  | cons x rest ih =>
    simp only [List.map_cons, sumSquares, List.sum_cons] at *
    rw [ih, div_mul_div_comm, div_add_div_same]

/-- C10: with `r` the L2 norm of `v` (i.e. `r * r = sumSquares v`, the value
`math.Sqrt` returns), a nonempty vector with nonzero norm normalizes to a
vector whose sum of squares (the squared L2 norm) is exactly 1, and an
empty vector or one with zero norm is returned unchanged. Over `ℚ` the
floating-point tolerance of the claim becomes exactness. -/
theorem NormalizeVector_unit_norm (v : List ℚ) (r : ℚ)
    (hr : r * r = sumSquares v) :
    (v ≠ [] → r ≠ 0 → sumSquares (NormalizeVector r v) = 1) ∧
    (v = [] ∨ r = 0 → NormalizeVector r v = v) := by
  constructor
  · intro hv hr0
    rw [NormalizeVector, if_neg hv, if_neg hr0, sumSquares_map_div, ← hr]
    exact div_self (mul_ne_zero hr0 hr0)
  · rintro (hv | hr0)
    · simp [NormalizeVector, hv]
    · rw [NormalizeVector, hr0]
      split
      · rfl
      · rw [if_pos rfl]

/-- Witness for C10 at `v = [3,4]`, `r = 5`: the normalized vector has
squared norm 1. -/
theorem NormalizeVector_unit_norm_witness :
    sumSquares (NormalizeVector 5 [(3 : ℚ), 4]) = 1 :=
  (NormalizeVector_unit_norm [(3 : ℚ), 4] 5 (by norm_num [sumSquares])).1
    (by simp) (by norm_num)

/-! ### Data model (internal/memory/memtypes/types.go) -/

/-- `MemoryItem`, restricted to the fields the verified operations read
(id, text, tags, embedding). -/
structure MemoryItem where
  id : String
  text : String
  tags : List String
  embedding : List ℚ
deriving DecidableEq, Repr

/-- `SearchResult`: a vector-search hit. -/
structure SearchResult where
  item : MemoryItem
  similarity : ℚ
deriving DecidableEq, Repr

/-- `MemoryFTSResult`: a full-text-search hit with snippet and rank. -/
structure MemoryFTSResult where
  item : MemoryItem
  snippet : String
  rank : ℚ
deriving DecidableEq, Repr

/-- `UnifiedResult`: fusion output; `source` is the Go string tag
"vector", "fts" or "both". -/
structure UnifiedResult where
  item : MemoryItem
  score : ℚ
  source : String
  vectorScore : ℚ
  ftsRank : ℚ
  snippet : String
deriving DecidableEq, Repr

/-- `RetrievalResponse`: the Retriever's return value. -/
structure RetrievalResponse where
  results : List UnifiedResult
  query : String
deriving DecidableEq, Repr

/-! ### Store vector search (internal/memory/store/store.go, SearchMemories) -/

/-- Descending-similarity comparison used by `sort.Slice` in
`SearchMemories` (`results[i].Similarity > results[j].Similarity`; the sort
establishes non-increasing similarity). -/
def simGE (a b : SearchResult) : Prop := b.similarity ≤ a.similarity

instance : DecidableRel simGE := fun a b =>
  inferInstanceAs (Decidable (b.similarity ≤ a.similarity))

instance : IsTotal SearchResult simGE :=
  ⟨fun a b => le_total b.similarity a.similarity⟩

instance : IsTrans SearchResult simGE :=
  ⟨fun _ _ _ hab hbc => le_trans hbc hab⟩

/-- Scoring-and-filtering loop of `SearchMemories`: every stored memory is
scored by dot product against the normalized query and kept iff the
similarity is at least `minSimilarity`. -/
def searchScored (memories : List MemoryItem) (sqrtNorm : ℚ)
    (queryEmbedding : List ℚ) (minSimilarity : ℚ) : List SearchResult :=
  let normalizedQuery := NormalizeVector sqrtNorm queryEmbedding
  memories.filterMap fun mem =>
    let similarity := DotProduct normalizedQuery mem.embedding
    if minSimilarity ≤ similarity then some ⟨mem, similarity⟩ else none

/-- `SearchMemories` from store.go: score and filter all stored memories,
sort descending by similarity, truncate to `topK`. `sqrtNorm` is the value
`math.Sqrt` returns inside `NormalizeVector` for the query embedding. -/
def SearchMemories (memories : List MemoryItem) (sqrtNorm : ℚ)
    (queryEmbedding : List ℚ) (topK : ℕ) (minSimilarity : ℚ) :
    List SearchResult :=
  ((searchScored memories sqrtNorm queryEmbedding minSimilarity).insertionSort
    simGE).take topK

lemma mem_searchScored {memories : List MemoryItem} {sqrtNorm : ℚ}
    {queryEmbedding : List ℚ} {minSimilarity : ℚ} {res : SearchResult}
    (h : res ∈ searchScored memories sqrtNorm queryEmbedding minSimilarity) :
    minSimilarity ≤ res.similarity ∧
      res.similarity =
        DotProduct (NormalizeVector sqrtNorm queryEmbedding)
          res.item.embedding ∧
      res.item ∈ memories := by
  simp only [searchScored, List.mem_filterMap] at h
  obtain ⟨mem, hmem, hres⟩ := h
  split at hres
  · rename_i hge
    cases hres
    exact ⟨hge, rfl, hmem⟩
  · cases hres

/-- C4: `SearchMemories` returns at most `topK` results, sorted descending
by similarity; every returned result is a stored memory scored by dot
product against the normalized query with similarity at least
`minSimilarity`; and every stored memory whose similarity clears the
threshold is kept by the scoring pass (`searchScored`) that the sorted,
truncated output is drawn from. -/
theorem SearchMemories_spec (memories : List MemoryItem) (sqrtNorm : ℚ)
    (queryEmbedding : List ℚ) (topK : ℕ) (minSimilarity : ℚ) :
    (SearchMemories memories sqrtNorm queryEmbedding topK
        minSimilarity).length ≤ topK ∧
    List.Sorted simGE
      (SearchMemories memories sqrtNorm queryEmbedding topK minSimilarity) ∧
    (∀ res ∈ SearchMemories memories sqrtNorm queryEmbedding topK
        minSimilarity,
      minSimilarity ≤ res.similarity ∧
      res.similarity =
        DotProduct (NormalizeVector sqrtNorm queryEmbedding)
          res.item.embedding ∧
      res.item ∈ memories) ∧
    (∀ mem ∈ memories,
      minSimilarity ≤
          DotProduct (NormalizeVector sqrtNorm queryEmbedding)
            mem.embedding →
      (⟨mem,
        DotProduct (NormalizeVector sqrtNorm queryEmbedding)
          mem.embedding⟩ : SearchResult) ∈
        searchScored memories sqrtNorm queryEmbedding minSimilarity) := by
  refine ⟨?_, ?_, ?_, ?_⟩
  · exact List.length_take_le topK _
  · exact List.Pairwise.sublist (List.take_sublist _ _)
      (List.sorted_insertionSort simGE _)
  · intro res hres
    have h1 : res ∈ (searchScored memories sqrtNorm queryEmbedding
        minSimilarity).insertionSort simGE :=
      List.mem_of_mem_take hres
    exact mem_searchScored ((List.mem_insertionSort simGE).1 h1)
  · intro mem hmem hge
    simp only [searchScored, List.mem_filterMap]
    exact ⟨mem, hmem, by rw [if_pos hge]⟩

/-- Concrete corpus used in witnesses: two unit memories along the two
axes. -/
def sampleMemories : List MemoryItem :=
  [⟨"a", "alpha", [], [1, 0]⟩, ⟨"b", "beta", [], [0, 1]⟩]

/-- Witness for C4 at a concrete corpus, query `[2,0]` with norm 2,
`topK = 1`, `minSimilarity = 1/2`: the output has at most one element, the
returned hit clears the threshold and carries the dot-product similarity,
and the matching memory is kept by the scoring pass. -/
theorem SearchMemories_spec_witness :
    (SearchMemories sampleMemories 2 [2, 0] 1 (1 / 2)).length ≤ 1 ∧
    ((1 : ℚ) / 2 ≤
        (⟨⟨"a", "alpha", [], [1, 0]⟩, 1⟩ : SearchResult).similarity ∧
      (⟨⟨"a", "alpha", [], [1, 0]⟩, 1⟩ : SearchResult).similarity =
        DotProduct (NormalizeVector 2 [2, 0])
          (⟨⟨"a", "alpha", [], [1, 0]⟩, 1⟩ : SearchResult).item.embedding ∧
      (⟨⟨"a", "alpha", [], [1, 0]⟩, 1⟩ : SearchResult).item ∈
        sampleMemories) ∧
    (⟨⟨"a", "alpha", [], [1, 0]⟩,
      DotProduct (NormalizeVector 2 [2, 0]) [1, 0]⟩ : SearchResult) ∈
      searchScored sampleMemories 2 [2, 0] (1 / 2) := by
  have h := SearchMemories_spec sampleMemories 2 [2, 0] 1 (1 / 2)
  have hn : NormalizeVector 2 [2, 0] = [(1 : ℚ), 0] := by
    simp [NormalizeVector]
  have hd : DotProduct (NormalizeVector 2 [2, 0]) [(1 : ℚ), 0] = 1 := by
    rw [hn]; simp [DotProduct]
  have hs : searchScored sampleMemories 2 [2, 0] (1 / 2) =
      [⟨⟨"a", "alpha", [], [1, 0]⟩, 1⟩] := by
    simp only [searchScored, sampleMemories, hn, List.filterMap]
    norm_num [DotProduct]
  refine ⟨h.1, h.2.2.1 ⟨⟨"a", "alpha", [], [1, 0]⟩, 1⟩ ?_, ?_⟩
  · simp only [SearchMemories]
    rw [hs]
    simp
  · have := h.2.2.2 ⟨"a", "alpha", [], [1, 0]⟩
      (by simp [sampleMemories]) (by rw [hd]; norm_num)
    simpa using this

/-! ### Fusion scoring (retrieval.go, calculateUnifiedScore / fuseResults).
The Go float constants translate exactly: `0.6 = 3/5`, `0.4 = 2/5`,
`1.2 = 6/5`, `20.0 = 20`. -/

/-- `calculateUnifiedScore` from retrieval.go, translated branch by branch
including the exact clamping steps: the `fts` branch clamps below at 0 and
above at 1; the `both` branch clamps its normalized FTS sub-score both ways
but clamps the boosted blend only above at 1. -/
def calculateUnifiedScore (ur : UnifiedResult) : ℚ :=
  if ur.source = "vector" then
    ur.vectorScore
  else if ur.source = "fts" then
    let score := 1 + ur.ftsRank / 20
    let score := if score < 0 then 0 else score
    if score > 1 then 1 else score
  else if ur.source = "both" then
    let ftsScore := 1 + ur.ftsRank / 20
    let ftsScore := if ftsScore < 0 then 0 else ftsScore
    let ftsScore := if ftsScore > 1 then 1 else ftsScore
    let score := (ur.vectorScore * (3 / 5) + ftsScore * (2 / 5)) * (6 / 5)
    if score > 1 then 1 else score
  else 0

/-- Two-sided clamp, in the spec's sense. -/
def clamp (x lo hi : ℚ) : ℚ := min (max x lo) hi

/-- Modelled from the spec's scoring formulas, for comparison with
`calculateUnifiedScore`: `vector` gives `VectorScore`; `fts` gives
`clamp(1 + FTSRank/20, 0, 1)`; `both` gives
`clamp((VectorScore*0.6 + ftsNormalized*0.4) * 1.2, 0, 1)`. -/
def specUnifiedScore (ur : UnifiedResult) : ℚ :=
  if ur.source = "vector" then
    ur.vectorScore
  else if ur.source = "fts" then
    clamp (1 + ur.ftsRank / 20) 0 1
  else if ur.source = "both" then
    clamp ((ur.vectorScore * (3 / 5) +
      clamp (1 + ur.ftsRank / 20) 0 1 * (2 / 5)) * (6 / 5)) 0 1
  else 0

/-- The scoring rule the code actually implements, stated with `min`/`max`:
identical to `specUnifiedScore` except that the `both` branch is clamped
only above at 1 (no lower clamp at 0). -/
def amendedUnifiedScore (ur : UnifiedResult) : ℚ :=
  if ur.source = "vector" then
    ur.vectorScore
  else if ur.source = "fts" then
    clamp (1 + ur.ftsRank / 20) 0 1
  else if ur.source = "both" then
    min ((ur.vectorScore * (3 / 5) +
      clamp (1 + ur.ftsRank / 20) 0 1 * (2 / 5)) * (6 / 5)) 1
  else 0

/-- Seed entry for a vector result (`Source=vector`, `VectorScore` set;
`Score`, `FTSRank`, `Snippet` are Go zero values). -/
def mkVectorEntry (vr : SearchResult) : UnifiedResult :=
  ⟨vr.item, 0, "vector", vr.similarity, 0, ""⟩

/-- New entry for an FTS result not present among the vector results
(`Source=fts`, rank and snippet set; `VectorScore` is the Go zero value). -/
def mkFTSEntry (fr : MemoryFTSResult) : UnifiedResult :=
  ⟨fr.item, 0, "fts", 0, fr.rank, fr.snippet⟩

/-- Upgrade of an existing map entry when the same id also appears in the
FTS results: `Source` becomes "both" and rank/snippet are attached. -/
def upgradeEntry (fr : MemoryFTSResult) (u : UnifiedResult) : UnifiedResult :=
  { u with source := "both", ftsRank := fr.rank, snippet := fr.snippet }

/-- `resultMap[vr.Item.ID] = &UnifiedResult{...}` for a vector result: the
Go map assignment, on the insertion-ordered association list modelling the
map (replace the entry with this id if present, else append). -/
def setVectorEntry (acc : List UnifiedResult) (vr : SearchResult) :
    List UnifiedResult :=
  if acc.any fun u => u.item.id = vr.item.id then
    acc.map fun u => if u.item.id = vr.item.id then mkVectorEntry vr else u
  else acc ++ [mkVectorEntry vr]

/-- Merge step for one FTS result: upgrade the entry with this id to "both"
if present, else insert a new `fts` entry. -/
def mergeFTSEntry (acc : List UnifiedResult) (fr : MemoryFTSResult) :
    List UnifiedResult :=
  if acc.any fun u => u.item.id = fr.item.id then
    acc.map fun u => if u.item.id = fr.item.id then upgradeEntry fr u else u
  else acc ++ [mkFTSEntry fr]

/-- The fully merged result map of `fuseResults`: seed with vector results,
then merge FTS results. Go iterates the map in unspecified order before
sorting; the association list fixes one insertion-order linearization,
which is immaterial to the verified properties (membership, fields,
sortedness, truncation). -/
def mergedResults (vrs : List SearchResult) (frs : List MemoryFTSResult) :
    List UnifiedResult :=
  frs.foldl mergeFTSEntry (vrs.foldl setVectorEntry [])

/-- Descending-score comparison used by `sort.Slice` in `fuseResults`. -/
def scoreGE (a b : UnifiedResult) : Prop := b.score ≤ a.score

instance : DecidableRel scoreGE := fun a b =>
  inferInstanceAs (Decidable (b.score ≤ a.score))

instance : IsTotal UnifiedResult scoreGE :=
  ⟨fun a b => le_total b.score a.score⟩

instance : IsTrans UnifiedResult scoreGE :=
  ⟨fun _ _ _ hab hbc => le_trans hbc hab⟩

/-- `fuseResults` from retrieval.go: merge the two result lists keyed by
item id, compute each entry's unified score, sort descending by score and
truncate to `topK`. -/
def fuseResults (topK : ℕ) (vrs : List SearchResult)
    (frs : List MemoryFTSResult) : List UnifiedResult :=
  let scored := (mergedResults vrs frs).map fun u =>
    { u with score := calculateUnifiedScore u }
  (scored.insertionSort scoreGE).take topK

lemma calculateUnifiedScore_set_score (u : UnifiedResult) (s : ℚ) :
    calculateUnifiedScore { u with score := s } = calculateUnifiedScore u :=
  rfl

lemma amendedUnifiedScore_set_score (u : UnifiedResult) (s : ℚ) :
    amendedUnifiedScore { u with score := s } = amendedUnifiedScore u :=
  rfl

lemma if_lt_zero_eq_max (x : ℚ) : (if x < 0 then 0 else x) = max x 0 := by
  rcases lt_or_le x 0 with h | h
  · rw [if_pos h, max_eq_right h.le]
  · rw [if_neg (not_lt.2 h), max_eq_left h]

lemma if_gt_one_eq_min (x : ℚ) : (if x > 1 then 1 else x) = min x 1 := by
  rcases lt_or_le 1 x with h | h
  · rw [if_pos h, min_eq_right h.le]
  · rw [if_neg (not_lt.2 h), min_eq_left h]

lemma calculateUnifiedScore_eq_amended (u : UnifiedResult) :
    calculateUnifiedScore u = amendedUnifiedScore u := by
  unfold calculateUnifiedScore amendedUnifiedScore clamp
  split
  · rfl
  · split
    · simp only [if_lt_zero_eq_max, if_gt_one_eq_min]
    · split
      · simp only [if_lt_zero_eq_max, if_gt_one_eq_min]
      · rfl

lemma mem_fuseResults {topK : ℕ} {vrs : List SearchResult}
    {frs : List MemoryFTSResult} {u : UnifiedResult}
    (h : u ∈ fuseResults topK vrs frs) :
    ∃ u₀ ∈ mergedResults vrs frs,
      u = { u₀ with score := calculateUnifiedScore u₀ } := by
  have h1 := List.mem_of_mem_take h
  have h2 := (List.mem_insertionSort scoreGE).1 h1
  simpa [eq_comm] using List.mem_map.1 h2

/-- C1 (amended): every unified result produced by `fuseResults` carries the
score `amendedUnifiedScore` assigns it: `vector` gives `VectorScore`; `fts`
gives `clamp(1 + FTSRank/20, 0, 1)`; `both` gives
`min((VectorScore*0.6 + ftsNormalized*0.4) * 1.2, 1)` — clamped above at 1
but not below at 0. -/
theorem fuseResults_score_formula (topK : ℕ) (vrs : List SearchResult)
    (frs : List MemoryFTSResult) :
    ∀ u ∈ fuseResults topK vrs frs, u.score = amendedUnifiedScore u := by
  intro u hu
  obtain ⟨u₀, _, rfl⟩ := mem_fuseResults hu
  rw [amendedUnifiedScore_set_score]
  exact calculateUnifiedScore_eq_amended u₀

/-- Item used by the fusion counterexample and witnesses. -/
def cexItem : MemoryItem := ⟨"m1", "t", [], []⟩

/-- Vector result list of the fusion counterexample: similarity `-1`
(reachable, since `minSimilarity` is an arbitrary configured float). -/
def cexVector : List SearchResult := [⟨cexItem, -1⟩]

/-- FTS result list of the fusion counterexample: rank `-20`. -/
def cexFTS : List MemoryFTSResult := [⟨cexItem, "snip", -20⟩]

lemma fuseResults_cex_eval :
    fuseResults 10 cexVector cexFTS =
      [⟨cexItem, -18 / 25, "both", -1, -20, "snip"⟩] := by
  have hm : mergedResults cexVector cexFTS =
      [⟨cexItem, 0, "both", -1, -20, "snip"⟩] := by
    simp [mergedResults, setVectorEntry, mergeFTSEntry, mkVectorEntry,
      upgradeEntry, cexVector, cexFTS, cexItem]
  have hc : calculateUnifiedScore ⟨cexItem, 0, "both", -1, -20, "snip"⟩ =
      -18 / 25 := by
    simp only [calculateUnifiedScore]
    rw [if_neg (by decide), if_neg (by decide)]
    norm_num
  unfold fuseResults
  rw [hm]
  simp [hc]

/-- C1 counterexample: on the concrete input `cexVector`/`cexFTS` the single
fused result (Source `both`, `VectorScore = -1`, `FTSRank = -20`) has score
`-18/25 = ((-1)*0.6 + 0*0.4)*1.2`, whereas the claimed formula
`clamp(..., 0, 1)` yields `0`; the claim is false as stated. -/
theorem fuseResults_clamp_counterexample :
    ¬ (∀ u ∈ fuseResults 10 cexVector cexFTS,
        u.score = specUnifiedScore u) := by
  intro h
  have hu := h ⟨cexItem, -18 / 25, "both", -1, -20, "snip"⟩
    (by rw [fuseResults_cex_eval]; exact List.mem_singleton.2 rfl)
  have hspec : specUnifiedScore ⟨cexItem, -18 / 25, "both", -1, -20, "snip"⟩ =
      0 := by
    simp only [specUnifiedScore, clamp]
    rw [if_neg (by decide), if_neg (by decide)]
    norm_num [min_def, max_def]
  rw [hspec] at hu
  norm_num at hu

/-- Witness for C1 (amended) at the counterexample input: the produced
entry's score equals the amended formula's value. -/
theorem fuseResults_score_formula_witness :
    (⟨cexItem, -18 / 25, "both", -1, -20, "snip"⟩ : UnifiedResult).score =
      amendedUnifiedScore ⟨cexItem, -18 / 25, "both", -1, -20, "snip"⟩ :=
  fuseResults_score_formula 10 cexVector cexFTS
    ⟨cexItem, -18 / 25, "both", -1, -20, "snip"⟩
    (by rw [fuseResults_cex_eval]; exact List.mem_singleton.2 rfl)

/-! ### Characterization of the fusion merge (for the `fuseResults` claim).
Go iterates a hash map; the association list `mergedResults` realizes the
same keyed-merge semantics, and the lemmas below characterize it when the
two input lists carry pairwise-distinct ids (which holds for the real
callers: `vectorSearch` deduplicates by id and FTS rows are keyed). -/

lemma filter_key_eq_nil {α : Type} (key : α → String) (l : List α) (x : String)
    (h : x ∉ l.map key) : (l.filter fun a => key a = x) = [] := by
  rw [List.filter_eq_nil_iff]
  intro a ha
  simp only [decide_eq_true_eq]
  exact fun he => h (he ▸ List.mem_map_of_mem key ha)

lemma filter_key_unique {α : Type} (key : α → String) {l : List α}
    (hl : (l.map key).Nodup) {a : α} (ha : a ∈ l) :
    (l.filter fun b => key b = key a) = [a] := by
  induction l with
  | nil => cases ha
  | cons b t ih =>
    rw [List.map_cons, List.nodup_cons] at hl
    rcases List.mem_cons.1 ha with rfl | hat
    · rw [List.filter_cons_of_pos (by simp),
        filter_key_eq_nil key t (key a) hl.1]
    · have hkey : key b ≠ key a := fun he =>
        hl.1 (he ▸ List.mem_map_of_mem key hat)
      rw [List.filter_cons_of_neg (by simp [hkey]), ih hl.2 hat]

lemma find?_key_unique {α : Type} (key : α → String) {l : List α}
    (hl : (l.map key).Nodup) {a : α} (ha : a ∈ l) {x : String}
    (hx : key a = x) : (l.find? fun b => key b = x) = some a := by
  induction l with
  | nil => cases ha
  | cons b t ih =>
    rw [List.map_cons, List.nodup_cons] at hl
    rcases List.mem_cons.1 ha with rfl | hat
    · rw [List.find?_cons_of_pos _ (by simp [hx])]
    · have hkey : key b ≠ x := fun he =>
        hl.1 (by rw [he, ← hx]; exact List.mem_map_of_mem key hat)
      rw [List.find?_cons_of_neg _ (by simp [hkey]), ih hl.2 hat]

/-- The net effect of merging the whole FTS list on one map entry: upgraded
to "both" by the (unique) FTS result with the same id, if any. -/
def upgradedBy (frs : List MemoryFTSResult) (u : UnifiedResult) :
    UnifiedResult :=
  match frs.find? fun fr => fr.item.id = u.item.id with
  | some fr => upgradeEntry fr u
  | none => u

lemma foldl_setVectorEntry_eq :
    ∀ (vrs : List SearchResult) (acc : List UnifiedResult),
      (∀ vr ∈ vrs, ∀ u ∈ acc, u.item.id ≠ vr.item.id) →
      ((vrs.map fun vr => vr.item.id).Nodup) →
      vrs.foldl setVectorEntry acc = acc ++ vrs.map mkVectorEntry
  | [], acc, _, _ => by simp
  | vr :: rest, acc, hdisj, hnodup => by
    rw [List.map_cons, List.nodup_cons] at hnodup
    have hany : (acc.any fun u => u.item.id = vr.item.id) = false := by
      rw [List.any_eq_false]
      intro u hu
      simp only [decide_eq_true_eq]
      exact hdisj vr (List.mem_cons_self vr rest) u hu
    have hstep : setVectorEntry acc vr = acc ++ [mkVectorEntry vr] := by
      rw [setVectorEntry, if_neg (by simp [hany])]
    have hdisj' : ∀ vr' ∈ rest, ∀ u ∈ acc ++ [mkVectorEntry vr],
        u.item.id ≠ vr'.item.id := by
      intro vr' hvr' u hu
      rcases List.mem_append.1 hu with h | h
      · exact hdisj vr' (List.mem_cons_of_mem vr hvr') u h
      · rw [List.mem_singleton.1 h]
        exact fun he => hnodup.1 (he ▸ List.mem_map_of_mem _ hvr')
    rw [List.foldl_cons, hstep,
      foldl_setVectorEntry_eq rest (acc ++ [mkVectorEntry vr]) hdisj'
        hnodup.2]
    simp

lemma foldl_mergeFTSEntry_eq (frs : List MemoryFTSResult) :
    ∀ init : List UnifiedResult,
      ((init.map fun u => u.item.id).Nodup) →
      ((frs.map fun fr => fr.item.id).Nodup) →
      frs.foldl mergeFTSEntry init =
        init.map (upgradedBy frs) ++
        (frs.filter fun fr =>
          ¬ init.any fun u => u.item.id = fr.item.id).map mkFTSEntry := by
  induction frs with
  | nil =>
    intro init _ _
    have hid : List.map (upgradedBy []) init = init := by
      rw [show upgradedBy [] = id from funext fun _ => rfl, List.map_id]
    simp [hid]
  | cons fr rest ih =>
    intro init hinit hf
    rw [List.map_cons, List.nodup_cons] at hf
    rw [List.foldl_cons]
    by_cases hpres : (init.any fun u => u.item.id = fr.item.id) = true
    · have hstep : mergeFTSEntry init fr =
          init.map fun u =>
            if u.item.id = fr.item.id then upgradeEntry fr u else u := by
        rw [mergeFTSEntry, if_pos hpres]
      have hgid : ∀ u : UnifiedResult,
          ((if u.item.id = fr.item.id then upgradeEntry fr u else u) :
            UnifiedResult).item.id = u.item.id := by
        intro u
        split <;> rfl
      have hids : ((init.map fun u =>
          if u.item.id = fr.item.id then upgradeEntry fr u else u).map
            fun u => u.item.id) = init.map fun u => u.item.id := by
        rw [List.map_map]
        exact List.map_congr_left fun u _ => hgid u
      have hinit' : (((init.map fun u =>
          if u.item.id = fr.item.id then upgradeEntry fr u else u).map
            fun u => u.item.id)).Nodup := by
        rw [hids]; exact hinit
      rw [hstep, ih _ hinit' hf.2]
      have h1 : ((init.map fun u =>
            if u.item.id = fr.item.id then upgradeEntry fr u else u).map
              (upgradedBy rest)) = init.map (upgradedBy (fr :: rest)) := by
        rw [List.map_map]
        apply List.map_congr_left
        intro u _
        show upgradedBy rest
          (if u.item.id = fr.item.id then upgradeEntry fr u else u) =
          upgradedBy (fr :: rest) u
        by_cases hu : u.item.id = fr.item.id
        · rw [if_pos hu, upgradedBy, upgradedBy,
            List.find?_cons_of_pos _ (by simp [hu.symm])]
          have hnone : (rest.find? fun fr' =>
              fr'.item.id = (upgradeEntry fr u).item.id) = none := by
            apply List.find?_eq_none.2
            intro fr' hfr'
            have : (upgradeEntry fr u).item.id = fr.item.id := hu
            simp only [this, decide_eq_true_eq]
            exact fun he => hf.1 (he ▸ List.mem_map_of_mem _ hfr')
          rw [hnone]
        · rw [if_neg hu, upgradedBy, upgradedBy,
            List.find?_cons_of_neg _ (by simp; exact fun he => hu he.symm)]
      have h2 : (rest.filter fun fr' =>
            ¬ (init.map fun u =>
              if u.item.id = fr.item.id then upgradeEntry fr u else u).any
                fun u => u.item.id = fr'.item.id) =
          rest.filter fun fr' =>
            ¬ init.any fun u => u.item.id = fr'.item.id := by
        apply List.filter_congr
        intro fr' _
        have hany : ((init.map fun u =>
            if u.item.id = fr.item.id then upgradeEntry fr u else u).any
              fun u => u.item.id = fr'.item.id) =
            init.any fun u => u.item.id = fr'.item.id := by
          rw [List.any_map]
          congr 1
          funext u
          simp [Function.comp, hgid u]
        rw [hany]
      have h3 : ((fr :: rest).filter fun fr' =>
            ¬ init.any fun u => u.item.id = fr'.item.id) =
          rest.filter fun fr' =>
            ¬ init.any fun u => u.item.id = fr'.item.id := by
        rw [List.filter_cons_of_neg (by simp [hpres])]
      rw [h1, h2, h3]
    · have hstep : mergeFTSEntry init fr = init ++ [mkFTSEntry fr] := by
        rw [mergeFTSEntry, if_neg hpres]
      have hnotin : ∀ u ∈ init, u.item.id ≠ fr.item.id := by
        intro u hu
        rw [List.any_eq_true] at hpres
        push_neg at hpres
        have := hpres u hu
        simpa using this
      have hinit' : (((init ++ [mkFTSEntry fr]).map
          fun u => u.item.id)).Nodup := by
        rw [List.map_append]
        rw [List.nodup_append]
        refine ⟨hinit, by simp, ?_⟩
        intro x hx
        simp only [List.map_cons, List.map_nil, List.mem_singleton]
        rw [List.mem_map] at hx
        obtain ⟨u, hu, rfl⟩ := hx
        exact fun he => hnotin u hu (by simpa using he)
      rw [hstep, ih _ hinit' hf.2]
      have h1 : ((init ++ [mkFTSEntry fr]).map (upgradedBy rest)) =
          init.map (upgradedBy (fr :: rest)) ++ [mkFTSEntry fr] := by
        rw [List.map_append]
        congr 1
        · apply List.map_congr_left
          intro u hu
          rw [upgradedBy, upgradedBy,
            List.find?_cons_of_neg _
              (by simp; exact fun he => hnotin u hu he.symm)]
        · simp only [List.map_cons, List.map_nil]
          congr 1
          rw [upgradedBy]
          have hnone : (rest.find? fun fr' =>
              fr'.item.id = (mkFTSEntry fr).item.id) = none := by
            apply List.find?_eq_none.2
            intro fr' hfr'
            simp only [mkFTSEntry, decide_eq_true_eq]
            exact fun he => hf.1 (he ▸ List.mem_map_of_mem _ hfr')
          rw [hnone]
      have h2 : (rest.filter fun fr' =>
            ¬ (init ++ [mkFTSEntry fr]).any
              fun u => u.item.id = fr'.item.id) =
          rest.filter fun fr' =>
            ¬ init.any fun u => u.item.id = fr'.item.id := by
        apply List.filter_congr
        intro fr' hfr'
        have hne : (mkFTSEntry fr).item.id ≠ fr'.item.id := by
          simp only [mkFTSEntry]
          exact fun he => hf.1 (he ▸ List.mem_map_of_mem _ hfr')
        simp [List.any_append, hne]
      have h3 : ((fr :: rest).filter fun fr' =>
            ¬ init.any fun u => u.item.id = fr'.item.id) =
          fr :: rest.filter fun fr' =>
            ¬ init.any fun u => u.item.id = fr'.item.id := by
        rw [List.filter_cons_of_pos (by simp [hpres])]
      rw [h1, h2, h3, List.map_cons]
      simp

lemma mergedResults_eq (vrs : List SearchResult) (frs : List MemoryFTSResult)
    (hv : (vrs.map fun vr => vr.item.id).Nodup)
    (hf : (frs.map fun fr => fr.item.id).Nodup) :
    mergedResults vrs frs =
      (vrs.map mkVectorEntry).map (upgradedBy frs) ++
      (frs.filter fun fr =>
        ¬ (vrs.map mkVectorEntry).any fun u => u.item.id = fr.item.id).map
        mkFTSEntry := by
  have hids : ((vrs.map mkVectorEntry).map fun u => u.item.id) =
      vrs.map fun vr => vr.item.id := by
    rw [List.map_map]
    exact List.map_congr_left fun vr _ => rfl
  rw [mergedResults, foldl_setVectorEntry_eq vrs [] (by simp) hv,
    List.nil_append, foldl_mergeFTSEntry_eq frs _ (by rw [hids]; exact hv) hf]

lemma upgradedBy_item (frs : List MemoryFTSResult) (u : UnifiedResult) :
    (upgradedBy frs u).item = u.item := by
  unfold upgradedBy
  cases frs.find? fun fr => fr.item.id = u.item.id <;> rfl

/-- C2: `fuseResults` merges the two lists keyed by item id (stated under
the distinct-id hypotheses that hold for its callers). In the merged map,
an id only in the vector list yields exactly the entry
`Source=vector`/`VectorScore`; an id only in the FTS list yields exactly
the entry `Source=fts` with rank and snippet; an id in both lists yields
exactly one entry `Source=both` carrying both sub-scores. The output is
the merged map scored, sorted descending by score, and truncated to
`topK`. -/
theorem fuseResults_merge_spec (topK : ℕ) (vrs : List SearchResult)
    (frs : List MemoryFTSResult)
    (hv : (vrs.map fun vr => vr.item.id).Nodup)
    (hf : (frs.map fun fr => fr.item.id).Nodup) :
    (∀ vr ∈ vrs, (∀ fr ∈ frs, fr.item.id ≠ vr.item.id) →
      ((mergedResults vrs frs).filter fun u => u.item.id = vr.item.id) =
        [mkVectorEntry vr]) ∧
    (∀ fr ∈ frs, (∀ vr ∈ vrs, vr.item.id ≠ fr.item.id) →
      ((mergedResults vrs frs).filter fun u => u.item.id = fr.item.id) =
        [mkFTSEntry fr]) ∧
    (∀ vr ∈ vrs, ∀ fr ∈ frs, fr.item.id = vr.item.id →
      ((mergedResults vrs frs).filter fun u => u.item.id = vr.item.id) =
        [⟨vr.item, 0, "both", vr.similarity, fr.rank, fr.snippet⟩]) ∧
    List.Sorted scoreGE (fuseResults topK vrs frs) ∧
    (fuseResults topK vrs frs).length ≤ topK ∧
    (∀ u ∈ fuseResults topK vrs frs, ∃ u₀ ∈ mergedResults vrs frs,
      u = { u₀ with score := calculateUnifiedScore u₀ }) := by
  have hmerged := mergedResults_eq vrs frs hv hf
  have hA : (vrs.map mkVectorEntry).map (upgradedBy frs) =
      vrs.map fun vr => upgradedBy frs (mkVectorEntry vr) := by
    rw [List.map_map]; rfl
  have hAfilter : ∀ x : String,
      (((vrs.map fun vr => upgradedBy frs (mkVectorEntry vr)).filter
        fun u => u.item.id = x)) =
      ((vrs.filter fun vr => vr.item.id = x).map
        fun vr => upgradedBy frs (mkVectorEntry vr)) := by
    intro x
    rw [List.filter_map]
    congr 1
    apply List.filter_congr
    intro vr _
    have h1 : (upgradedBy frs (mkVectorEntry vr)).item.id = vr.item.id := by
      rw [upgradedBy_item]
      rfl
    simp only [Function.comp]
    rw [h1]
  refine ⟨?_, ?_, ?_, ?_, ?_, ?_⟩
  · -- vector-only
    intro vr hvr hnofr
    rw [hmerged, List.filter_append, hA, hAfilter,
      filter_key_unique (fun vr : SearchResult => vr.item.id) hv hvr]
    have hBnil : (((frs.filter fun fr =>
        ¬ (vrs.map mkVectorEntry).any fun u => u.item.id = fr.item.id).map
          mkFTSEntry).filter fun u => u.item.id = vr.item.id) = [] := by
      rw [List.filter_map, List.map_eq_nil_iff, List.filter_eq_nil_iff]
      intro fr hfr
      have hfr' : fr ∈ frs := List.mem_of_mem_filter hfr
      simp only [Function.comp, mkFTSEntry, decide_eq_true_eq]
      exact hnofr fr hfr'
    rw [hBnil, List.append_nil, List.map_singleton]
    have hnone : (frs.find? fun fr =>
        fr.item.id = (mkVectorEntry vr).item.id) = none := by
      apply List.find?_eq_none.2
      intro fr hfr
      simp only [mkVectorEntry, decide_eq_true_eq]
      exact hnofr fr hfr
    rw [upgradedBy, hnone]
  · -- fts-only
    intro fr hfr hnovr
    rw [hmerged, List.filter_append, hA, hAfilter]
    have hAnil : (vrs.filter fun vr => vr.item.id = fr.item.id) = [] := by
      rw [List.filter_eq_nil_iff]
      intro vr hvr
      simp only [decide_eq_true_eq]
      exact hnovr vr hvr
    rw [hAnil, List.map_nil, List.nil_append, List.filter_map]
    have hq : fr ∈ frs.filter fun fr' =>
        ¬ (vrs.map mkVectorEntry).any fun u => u.item.id = fr'.item.id := by
      rw [List.mem_filter]
      refine ⟨hfr, ?_⟩
      simp only [decide_eq_true_eq]
      rw [List.any_eq_true]
      push_neg
      intro u hu
      obtain ⟨vr, hvr, rfl⟩ := List.mem_map.1 hu
      exact fun he => hnovr vr hvr (of_decide_eq_true he)
    have hnodupq : (((frs.filter fun fr' =>
        ¬ (vrs.map mkVectorEntry).any fun u => u.item.id = fr'.item.id).map
          fun fr' : MemoryFTSResult => fr'.item.id)).Nodup :=
      (hf.sublist (List.Sublist.map _ (List.filter_sublist frs)))
    have hfilter : ((frs.filter fun fr' =>
        ¬ (vrs.map mkVectorEntry).any fun u => u.item.id = fr'.item.id).filter
          ((fun u : UnifiedResult => decide (u.item.id = fr.item.id)) ∘
            mkFTSEntry)) = [fr] := by
      have hkey := filter_key_unique (fun fr' : MemoryFTSResult => fr'.item.id)
        hnodupq hq
      rw [← hkey]
      exact List.filter_congr fun fr' _ => rfl
    rw [hfilter, List.map_singleton]
  · -- both
    intro vr hvr fr hfr hid
    rw [hmerged, List.filter_append, hA, hAfilter,
      filter_key_unique (fun vr : SearchResult => vr.item.id) hv hvr]
    have hBnil : (((frs.filter fun fr' =>
        ¬ (vrs.map mkVectorEntry).any fun u => u.item.id = fr'.item.id).map
          mkFTSEntry).filter fun u => u.item.id = vr.item.id) = [] := by
      rw [List.filter_map, List.map_eq_nil_iff, List.filter_eq_nil_iff]
      intro fr' hfr'
      rw [List.mem_filter] at hfr'
      simp only [Function.comp, mkFTSEntry, decide_eq_true_eq]
      intro he
      have hany : ((vrs.map mkVectorEntry).any
          fun u => u.item.id = fr'.item.id) = true := by
        rw [List.any_eq_true]
        refine ⟨mkVectorEntry vr, List.mem_map_of_mem mkVectorEntry hvr, ?_⟩
        simp only [mkVectorEntry, decide_eq_true_eq]
        exact he.symm
      have h2 := hfr'.2
      rw [hany] at h2
      simp at h2
    rw [hBnil, List.append_nil, List.map_singleton]
    have hsome : (frs.find? fun fr' =>
        fr'.item.id = (mkVectorEntry vr).item.id) = some fr := by
      exact find?_key_unique (fun fr' : MemoryFTSResult => fr'.item.id) hf
        hfr hid
    rw [upgradedBy, hsome]
    rfl
  · exact List.Pairwise.sublist (List.take_sublist _ _)
      (List.sorted_insertionSort scoreGE _)
  · exact List.length_take_le topK _
  · intro u hu
    exact mem_fuseResults hu

/-- Items used by the fusion-merge witness: one id only in the vector list,
one in both, one only in the FTS list. -/
def fuseA : MemoryItem := ⟨"fa", "", [], []⟩

/-- Witness item present in both result lists. -/
def fuseB : MemoryItem := ⟨"fb", "", [], []⟩

/-- Witness item present only in the FTS result list. -/
def fuseC : MemoryItem := ⟨"fc", "", [], []⟩

/-- Vector results of the fusion-merge witness. -/
def wVrs : List SearchResult := [⟨fuseA, 1⟩, ⟨fuseB, 1 / 2⟩]

/-- FTS results of the fusion-merge witness. -/
def wFrs : List MemoryFTSResult := [⟨fuseB, "sb", -10⟩, ⟨fuseC, "sc", -5⟩]

/-- Witness for C2 at a concrete pair of result lists: the vector-only id
keeps `Source=vector`, the shared id is merged once into `Source=both` with
both sub-scores, and the FTS-only id keeps `Source=fts`. -/
theorem fuseResults_merge_spec_witness :
    ((mergedResults wVrs wFrs).filter fun u => u.item.id = fuseA.id) =
      [mkVectorEntry ⟨fuseA, 1⟩] ∧
    ((mergedResults wVrs wFrs).filter fun u => u.item.id = fuseB.id) =
      [⟨fuseB, 0, "both", 1 / 2, -10, "sb"⟩] ∧
    ((mergedResults wVrs wFrs).filter fun u => u.item.id = fuseC.id) =
      [mkFTSEntry ⟨fuseC, "sc", -5⟩] := by
  have h := fuseResults_merge_spec 5 wVrs wFrs
    (by simp [wVrs, fuseA, fuseB])
    (by simp [wFrs, fuseB, fuseC])
  refine ⟨h.1 ⟨fuseA, 1⟩ (by simp [wVrs]) ?_,
    h.2.2.1 ⟨fuseB, 1 / 2⟩ (by simp [wVrs]) ⟨fuseB, "sb", -10⟩
      (by simp [wFrs]) rfl,
    h.2.1 ⟨fuseC, "sc", -5⟩ (by simp [wFrs]) ?_⟩
  · intro fr hfr
    simp only [wFrs, List.mem_cons, List.mem_singleton] at hfr
    rcases hfr with rfl | rfl | h'
    · simp [fuseA, fuseB]
    · simp [fuseA, fuseC]
    · cases h'
  · intro vr hvr
    simp only [wVrs, List.mem_cons, List.mem_singleton] at hvr
    rcases hvr with rfl | rfl | h'
    · simp [fuseA, fuseC]
    · simp [fuseB, fuseC]
    · cases h'

/-! ### FTS tokenization (retrieval.go, tokenizeForFTS). Strings are
processed as their character lists; `strings.Fields` splits on runs of
whitespace, `strings.TrimSpace` trims it at both ends, and
`strings.ReplaceAll(w, c, "")` removes a character. Go measures token
length in UTF-8 bytes (`len(w) > 1`), modelled by `byteLen`. -/

/-- The double-quote character, `"`. -/
def quoteChar : Char := Char.ofNat 34

/-- The single-quote character, `'`. -/
def aposChar : Char := Char.ofNat 39

/-- Splitting loop of `strings.Fields`: accumulates the current word
(reversed) and emits it at each whitespace run or at the end. -/
def fieldsAux : List Char → List Char → List (List Char)
  | acc, [] => if acc = [] then [] else [acc.reverse]
  | acc, c :: cs =>
    if c.isWhitespace then
      if acc = [] then fieldsAux [] cs else acc.reverse :: fieldsAux [] cs
    else fieldsAux (c :: acc) cs

/-- `strings.Fields`: the whitespace-separated words of a string. -/
def fields (s : List Char) : List (List Char) := fieldsAux [] s

/-- `strings.TrimSpace`: drop leading and trailing whitespace. -/
def trimChars (s : List Char) : List Char :=
  ((s.dropWhile Char.isWhitespace).reverse.dropWhile Char.isWhitespace).reverse

/-- `strings.ReplaceAll(w, string(a), "")`: remove every occurrence of a
single character. -/
def removeChar (a : Char) (w : List Char) : List Char :=
  w.filter fun c => c ≠ a

/-- The per-word sanitization chain of `tokenizeForFTS`, in the exact
order of the Go `strings.ReplaceAll` calls: remove `"`, `'`, `*`; replace
`-` by a space; remove `+`, `^`, `:`, `(`, `)`; trim. -/
def sanitizeWord (w : List Char) : List Char :=
  let w := removeChar quoteChar w
  let w := removeChar aposChar w
  let w := removeChar '*' w
  let w := w.map fun c => if c = '-' then ' ' else c
  let w := removeChar '+' w
  let w := removeChar '^' w
  let w := removeChar ':' w
  let w := removeChar '(' w
  let w := removeChar ')' w
  trimChars w

/-- Number of UTF-8 bytes Go uses to encode a character (`len` counts
bytes). -/
def charUTF8Len (c : Char) : ℕ :=
  if c.toNat < 128 then 1
  else if c.toNat < 2048 then 2
  else if c.toNat < 65536 then 3
  else 4

/-- Go `len(w)`: the UTF-8 byte length of a word. -/
def byteLen (w : List Char) : ℕ := (w.map charUTF8Len).sum

/-- `strings.Join(tokens, " OR ")`. -/
def joinOR : List (List Char) → List Char
  | [] => []
  | [t] => t
  | t :: ts => t ++ (' ' :: 'O' :: 'R' :: ' ' :: joinOR ts)

/-- `tokenizeForFTS` from retrieval.go: trim the query, split into words,
sanitize each word, keep only words of byte length above 1, join the
survivors with " OR "; empty outcomes yield the empty string. -/
def tokenizeForFTS (query : String) : String :=
  let q := trimChars query.data
  if q = [] then ""
  else
    let tokens := ((fields q).map sanitizeWord).filter fun w => 1 < byteLen w
    if tokens = [] then "" else ⟨joinOR tokens⟩

/-- The characters the sanitization removes before the dash replacement. -/
def preDashStrip : List Char := [quoteChar, aposChar, '*']

/-- The characters the sanitization removes after the dash replacement. -/
def postDashStrip : List Char := ['+', '^', ':', '(', ')']

/-- Modelled from the amended spec wording: strip `"` `'` `*`, replace `-`
by a space (without re-splitting the word), strip `+` `^` `:` `(` `)`,
trim; single-pass grouped formulation to compare with the sequential
`sanitizeWord` chain. -/
def specSanitizeWord (w : List Char) : List Char :=
  trimChars
    (((w.filter fun c => ¬ preDashStrip.contains c).map
      fun c => if c = '-' then ' ' else c).filter
        fun c => ¬ postDashStrip.contains c)

/-- Modelled from the amended spec wording: split the query on whitespace,
sanitize each word, drop words of byte length at most 1, join with
" OR ". -/
def specTokenizeForFTS (query : String) : String :=
  ⟨joinOR (((fields query.data).map specSanitizeWord).filter
    fun w => 1 < byteLen w)⟩

lemma sanitizeCore_eq (w : List Char) :
    removeChar ')' (removeChar '(' (removeChar ':' (removeChar '^'
      (removeChar '+'
        ((removeChar '*' (removeChar aposChar (removeChar quoteChar w))).map
          fun c => if c = '-' then ' ' else c))))) =
    ((w.filter fun c => ¬ preDashStrip.contains c).map
      fun c => if c = '-' then ' ' else c).filter
        fun c => ¬ postDashStrip.contains c := by
  have hpre : ∀ a : Char,
      (!decide (a = '*') && (!decide (a = aposChar) &&
        !decide (a = quoteChar))) =
      (!decide ((a == quoteChar || (a == aposChar || a == '*')) = true)) := by
    intro a
    by_cases h1 : a = '*' <;> by_cases h2 : a = aposChar <;>
      by_cases h3 : a = quoteChar <;> simp [h1, h2, h3]
  have hpost : ∀ a : Char,
      (!decide (a = ')') && (!decide (a = '(') && (!decide (a = ':') &&
        (!decide (a = '^') && !decide (a = '+'))))) =
      (!decide ((a == '+' || (a == '^' || (a == ':' ||
        (a == '(' || a == ')')))) = true)) := by
    intro a
    by_cases h1 : a = ')' <;> by_cases h2 : a = '(' <;>
      by_cases h3 : a = ':' <;> by_cases h4 : a = '^' <;>
        by_cases h5 : a = '+' <;> simp [h1, h2, h3, h4, h5]
  simp only [removeChar, preDashStrip, postDashStrip, List.filter_filter,
    List.contains_cons, List.contains_nil, Bool.or_false, Bool.not_or,
    Bool.and_assoc, decide_not]
  rw [List.filter_congr fun a _ => hpre a,
    List.filter_congr fun a _ => hpost a]

lemma sanitizeWord_eq_spec (w : List Char) :
    sanitizeWord w = specSanitizeWord w :=
  congrArg trimChars (sanitizeCore_eq w)

lemma fieldsAux_all_ws (t : List Char) (h : ∀ c ∈ t, c.isWhitespace) :
    ∀ acc, fieldsAux acc t = fieldsAux acc [] := by
  induction t with
  | nil => intro acc; rfl
  | cons c ct ih =>
    intro acc
    have hc : c.isWhitespace := h c (List.mem_cons_self c ct)
    have hct : ∀ x ∈ ct, x.isWhitespace := fun x hx =>
      h x (List.mem_cons_of_mem c hx)
    simp only [fieldsAux, hc, if_true]
    by_cases hacc : acc = []
    · rw [if_pos hacc, ih hct [], hacc]
      rfl
    · rw [if_neg hacc, ih hct []]
      simp [fieldsAux, hacc]

lemma fieldsAux_append_ws (t : List Char) (h : ∀ c ∈ t, c.isWhitespace) :
    ∀ (s acc : List Char), fieldsAux acc (s ++ t) = fieldsAux acc s := by
  intro s
  induction s with
  | nil =>
    intro acc
    rw [List.nil_append, fieldsAux_all_ws t h acc]
  | cons c cs ih =>
    intro acc
    simp only [List.cons_append, fieldsAux]
    by_cases hc : c.isWhitespace
    · rw [if_pos hc, if_pos hc]
      by_cases hacc : acc = []
      · rw [if_pos hacc, if_pos hacc]
        exact ih []
      · rw [if_neg hacc, if_neg hacc]
        exact congrArg _ (ih [])
    · rw [if_neg hc, if_neg hc]
      exact ih (c :: acc)

lemma fields_dropWhile_ws (s : List Char) :
    fields (s.dropWhile Char.isWhitespace) = fields s := by
  induction s with
  | nil => rfl
  | cons c cs ih =>
    by_cases hc : c.isWhitespace
    · rw [show (c :: cs).dropWhile Char.isWhitespace =
          cs.dropWhile Char.isWhitespace from by
            simp [List.dropWhile_cons, hc], ih]
      show fields cs = fieldsAux [] (c :: cs)
      simp only [fieldsAux, hc, if_true, if_pos rfl]
      rfl
    · rw [show (c :: cs).dropWhile Char.isWhitespace = c :: cs from by
        simp [List.dropWhile_cons, hc]]

lemma fields_trimChars (s : List Char) : fields (trimChars s) = fields s := by
  unfold trimChars
  have h0 := List.takeWhile_append_dropWhile Char.isWhitespace
    (s.dropWhile Char.isWhitespace).reverse
  have hsplit : s.dropWhile Char.isWhitespace =
      ((s.dropWhile Char.isWhitespace).reverse.dropWhile
        Char.isWhitespace).reverse ++
      ((s.dropWhile Char.isWhitespace).reverse.takeWhile
        Char.isWhitespace).reverse := by
    conv_lhs => rw [← List.reverse_reverse (s.dropWhile Char.isWhitespace),
      ← h0]
    rw [List.reverse_append]
  have hws : ∀ c ∈ ((s.dropWhile Char.isWhitespace).reverse.takeWhile
      Char.isWhitespace).reverse, c.isWhitespace := by
    intro c hc
    rw [List.mem_reverse] at hc
    exact List.mem_takeWhile_imp hc
  rw [← fields_dropWhile_ws s]
  conv_rhs => rw [hsplit]
  exact (fieldsAux_append_ws _ hws _ []).symm

/-- C3 counterexample: on the claim's own example input
`"hello-world (test)*"`, the code produces `"hello world OR test"` (the
hyphen is replaced by a space inside the token, which is not re-split),
not the claimed `"hello OR world OR test"`. -/
theorem tokenizeForFTS_example_counterexample :
    tokenizeForFTS "hello-world (test)*" = "hello world OR test" ∧
    tokenizeForFTS "hello-world (test)*" ≠ "hello OR world OR test" := by
  decide

/-- C3 (amended): `tokenizeForFTS` splits the raw query on whitespace and,
within each token, strips the characters `" ' * + ^ : ( )`, replaces `-`
by a space (without re-splitting the token), trims the token, drops tokens
of UTF-8 byte length at most 1, and joins the survivors with " OR "; in
particular `"hello-world (test)*"` yields the tokens
`["hello world", "test"]` joined as `"hello world OR test"`. -/
theorem tokenizeForFTS_amended :
    (∀ query : String, tokenizeForFTS query = specTokenizeForFTS query) ∧
    tokenizeForFTS "hello-world (test)*" = "hello world OR test" := by
  constructor
  · intro query
    unfold tokenizeForFTS specTokenizeForFTS
    by_cases hq : trimChars query.data = []
    · rw [if_pos hq]
      have hfe : fields query.data = [] := by
        rw [← fields_trimChars, hq]
        rfl
      rw [hfe]
      rfl
    · rw [if_neg hq, fields_trimChars]
      have hmap : (fields query.data).map sanitizeWord =
          (fields query.data).map specSanitizeWord :=
        List.map_congr_left fun w _ => sanitizeWord_eq_spec w
      rw [hmap]
      by_cases ht : (((fields query.data).map specSanitizeWord).filter
          fun w => 1 < byteLen w) = []
      · rw [if_pos ht, ht]
        rfl
      · rw [if_neg ht]
  · decide

/-! ### Reindex pipeline (retrieval.go, ReindexMemories). The pipeline's
three goroutines pass one job at a time through
`jobsCh → embedder → writeCh → retry → jobsCh`, so a single job's
lifecycle is sequential; `runReindexJob` is that per-job trace.
`attempt k` is the combined outcome of the embedding call and the store
write for the attempt made with retry counter `k` (`.error e` routes the
job to the retry stage carrying `e`). -/

/-- Per-job outcome: number of embed attempts made, the backoff delays
slept between attempts (in seconds, in order), whether the job was
recorded as a permanent failure, and the last error. -/
structure JobOutcome where
  attempts : ℕ
  delays : List ℕ
  failed : Bool
  lastErr : Option String
deriving DecidableEq, Repr

/-- One job's trace through the pipeline, starting at retry counter `k`:
a successful attempt finishes the job; a failed attempt at
`retryCount ≥ 5` records a permanent failure; otherwise the retry stage
sleeps `(retryCount+1) * 2` seconds, increments the counter and
resubmits. -/
def runReindexJob (attempt : ℕ → Except String Unit) (k : ℕ) : JobOutcome :=
  match attempt k with
  | .ok _ => ⟨1, [], false, none⟩
  | .error e =>
    if 5 ≤ k then ⟨1, [], true, some e⟩
    else
      let rest := runReindexJob attempt (k + 1)
      ⟨rest.attempts + 1, (k + 1) * 2 :: rest.delays, rest.failed,
        rest.lastErr⟩
termination_by 6 - k
decreasing_by omega

lemma runReindexJob_const_error (e : String) :
    runReindexJob (fun _ => .error e) 0 =
      ⟨6, [2, 4, 6, 8, 10], true, some e⟩ := by
  have step : ∀ k, k < 5 →
      runReindexJob (fun _ => .error e) k =
        ⟨(runReindexJob (fun _ => .error e) (k + 1)).attempts + 1,
          (k + 1) * 2 ::
            (runReindexJob (fun _ => .error e) (k + 1)).delays,
          (runReindexJob (fun _ => .error e) (k + 1)).failed,
          (runReindexJob (fun _ => .error e) (k + 1)).lastErr⟩ :=
    fun k hk => by
      rw [runReindexJob]
      simp [Nat.not_le.2 hk]
  have last : runReindexJob (fun _ => .error e) 5 =
      ⟨1, [], true, some e⟩ := by
    rw [runReindexJob]
    simp
  rw [step 0 (by norm_num), step 1 (by norm_num), step 2 (by norm_num),
    step 3 (by norm_num), step 4 (by norm_num), last]

/-- C5: a reindex job whose embedding call always fails is attempted
exactly 6 times in total (1 initial attempt plus 5 retries) before being
recorded as a permanent failure, with inter-attempt backoff delays of
2, 4, 6, 8, 10 seconds. -/
theorem reindexJob_retry_ceiling :
    runReindexJob (fun _ => .error "embed failed") 0 =
      ⟨6, [2, 4, 6, 8, 10], true, some "embed failed"⟩ :=
  runReindexJob_const_error "embed failed"

/-! ### Retriever (retrieval.go, vectorSearch / Retrieve). External calls
are oracles: `transformed` is the outcome of `transformQueryForVector`,
`embed` of `EmbeddingClient.Embed` per query string, and `search` of
`store.SearchMemories` per embedding. Each search path's outcome is the
Go `(results, err)` pair its goroutine assigned; the two components are
kept separate because a path can return partial results together with a
non-nil error (`SearchMemoriesFTS` ends with `return results, rows.Err()`,
reachable through the direct/summary/keywords strategies). -/

/-- Deduplicating append of vector-search results (`if !seenIDs[id]`):
a result is kept only if no result with its id was collected before. -/
def addUnique (acc : List SearchResult) (res : SearchResult) :
    List SearchResult :=
  if acc.any fun w => w.item.id = res.item.id then acc else acc ++ [res]

/-- The collection loop of `vectorSearch`: embed each transformed query
and search the store, silently skipping a query whose embedding call or
store search fails, deduplicating results by id across queries. -/
def vectorSearchCollect (embed : String → Except String (List ℚ))
    (search : List ℚ → Except String (List SearchResult)) :
    List String → List SearchResult → List SearchResult
  | [], acc => acc
  | q :: qs, acc =>
    match embed q with
    | .error _ => vectorSearchCollect embed search qs acc
    | .ok emb =>
      match search emb with
      | .error _ => vectorSearchCollect embed search qs acc
      | .ok rs => vectorSearchCollect embed search qs (rs.foldl addUnique acc)

/-- `vectorSearch` from retrieval.go: fall back to the original query when
the transformation failed, collect and deduplicate per-query results,
re-sort descending by similarity, truncate to `topK`; always returns
`.ok`. -/
def vectorSearch (transformed : Except String (List String))
    (embed : String → Except String (List ℚ))
    (search : List ℚ → Except String (List SearchResult))
    (topK : ℕ) (query : String) : Except String (List SearchResult) :=
  let queries :=
    match transformed with
    | .error _ => [query]
    | .ok qs => qs
  let all := vectorSearchCollect embed search queries []
  .ok ((all.insertionSort simGE).take topK)

/-- The post-join logic of `Retrieve` (the code after `wg.Wait()`),
parameterized over the two Go `(results, err)` path outcomes: error iff
both errors are non-nil, else fuse the two result slices exactly as the
paths returned them — including any partial results a failed side
returned alongside its error. -/
def retrieveCombine (topK : ℕ) (query : String)
    (vector : List SearchResult × Option String)
    (fts : List MemoryFTSResult × Option String) :
    Except String RetrievalResponse :=
  match vector.2, fts.2 with
  | some ve, some fe =>
    .error ("retrieval failed: vector: " ++ ve ++ ", fts: " ++ fe)
  | _, _ => .ok ⟨fuseResults topK vector.1 fts.1, query⟩

/-- `Retrieve` from retrieval.go: run the vector path and combine its
`(results, err)` pair with the `(ftsResults, ftsErr)` pair the FTS
goroutine assigned. Every Go return of `vectorSearch` is
`allResults, nil`, so the `.error` translation below is dead code. -/
def Retrieve (transformed : Except String (List String))
    (embed : String → Except String (List ℚ))
    (search : List ℚ → Except String (List SearchResult))
    (ftsResults : List MemoryFTSResult) (ftsErr : Option String)
    (topK : ℕ) (query : String) : Except String RetrievalResponse :=
  match vectorSearch transformed embed search topK query with
  | .ok vrs => retrieveCombine topK query (vrs, none) (ftsResults, ftsErr)
  | .error ve => retrieveCombine topK query ([], some ve) (ftsResults, ftsErr)

lemma mem_mergedResults_items (vrs : List SearchResult)
    (frs : List MemoryFTSResult) :
    ∀ u ∈ mergedResults vrs frs,
      (∃ vr ∈ vrs, u.item = vr.item) ∨ ∃ fr ∈ frs, u.item = fr.item := by
  have hseed : ∀ (l : List SearchResult) (acc : List UnifiedResult),
      ∀ u ∈ l.foldl setVectorEntry acc,
        (∃ w ∈ acc, u.item = w.item) ∨ ∃ vr ∈ l, u.item = vr.item := by
    intro l
    induction l with
    | nil =>
      intro acc u hu
      exact Or.inl ⟨u, hu, rfl⟩
    | cons vr rest ih =>
      intro acc u hu
      rw [List.foldl_cons] at hu
      rcases ih (setVectorEntry acc vr) u hu with ⟨w, hw, he⟩ | ⟨vr', h1, h2⟩
      · rw [setVectorEntry] at hw
        split at hw
        · rcases List.mem_map.1 hw with ⟨w0, hw0, rfl⟩
          split at he
          · exact Or.inr ⟨vr, List.mem_cons_self vr rest, he⟩
          · exact Or.inl ⟨w0, hw0, he⟩
        · rcases List.mem_append.1 hw with h | h
          · exact Or.inl ⟨w, h, he⟩
          · rw [List.mem_singleton.1 h] at he
            exact Or.inr ⟨vr, List.mem_cons_self vr rest, he⟩
      · exact Or.inr ⟨vr', List.mem_cons_of_mem vr h1, h2⟩
  have hmerge : ∀ (l : List MemoryFTSResult) (init : List UnifiedResult),
      ∀ u ∈ l.foldl mergeFTSEntry init,
        (∃ w ∈ init, u.item = w.item) ∨ ∃ fr ∈ l, u.item = fr.item := by
    intro l
    induction l with
    | nil =>
      intro init u hu
      exact Or.inl ⟨u, hu, rfl⟩
    | cons fr rest ih =>
      intro init u hu
      rw [List.foldl_cons] at hu
      rcases ih (mergeFTSEntry init fr) u hu with ⟨w, hw, he⟩ | ⟨fr', h1, h2⟩
      · rw [mergeFTSEntry] at hw
        split at hw
        · rcases List.mem_map.1 hw with ⟨w0, hw0, rfl⟩
          split at he
          · exact Or.inl ⟨w0, hw0, he⟩
          · exact Or.inl ⟨w0, hw0, he⟩
        · rcases List.mem_append.1 hw with h | h
          · exact Or.inl ⟨w, h, he⟩
          · rw [List.mem_singleton.1 h] at he
            exact Or.inr ⟨fr, List.mem_cons_self fr rest, he⟩
      · exact Or.inr ⟨fr', List.mem_cons_of_mem fr h1, h2⟩
  intro u hu
  rcases hmerge frs (vrs.foldl setVectorEntry []) u hu with ⟨w, hw, he⟩ | h
  · rcases hseed vrs [] w hw with ⟨w', hw', _⟩ | ⟨vr, h1, h2⟩
    · cases hw'
    · exact Or.inl ⟨vr, h1, he ▸ h2⟩
  · exact Or.inr h

lemma fuseResults_fts_only_eval :
    fuseResults 10 [] cexFTS = [⟨cexItem, 0, "fts", 0, -20, "snip"⟩] := by
  have hm : mergedResults [] cexFTS =
      [⟨cexItem, 0, "fts", 0, -20, "snip"⟩] := by
    simp [mergedResults, mergeFTSEntry, mkFTSEntry, cexFTS, cexItem]
  have hc : calculateUnifiedScore ⟨cexItem, 0, "fts", 0, -20, "snip"⟩ = 0 := by
    simp only [calculateUnifiedScore]
    rw [if_neg (by decide)]
    norm_num
  unfold fuseResults
  rw [hm]
  simp [hc]

/-- C6 counterexample: with the vector path succeeding with no results and
the FTS path failing while carrying partial results alongside its error
(as `SearchMemoriesFTS`'s final `return results, rows.Err()` can after
scanning some rows), `Retrieve`'s combining step raises no error and its
fused output contains an entry from the failed side — it is not the
surviving side's results alone, which would be `fuseResults 10 [] [] = []`.
The claim's "the failed side contributing no entries" is false as
stated. -/
theorem retrieveCombine_failed_side_counterexample :
    retrieveCombine 10 "q" ([], none) (cexFTS, some "fe") =
      .ok ⟨[⟨cexItem, 0, "fts", 0, -20, "snip"⟩], "q"⟩ ∧
    fuseResults 10 ([] : List SearchResult) [] = [] ∧
    retrieveCombine 10 "q" ([], none) (cexFTS, some "fe") ≠
      .ok ⟨fuseResults 10 [] [], "q"⟩ := by
  have heval : retrieveCombine 10 "q" ([], none) (cexFTS, some "fe") =
      .ok ⟨fuseResults 10 [] cexFTS, "q"⟩ := rfl
  refine ⟨?_, rfl, ?_⟩
  · rw [heval, fuseResults_fts_only_eval]
  · intro h
    rw [heval, fuseResults_fts_only_eval] at h
    rw [show fuseResults 10 ([] : List SearchResult) [] = [] from rfl] at h
    simp at h

/-- C6 (amended): when both the vector path and the FTS path fail,
`Retrieve`'s combining step returns the combined error; when exactly one
path fails, no error is raised and the result slices accompanying the two
outcomes are fused as the paths returned them — the failed side
contributes exactly the (possibly non-empty) partial results accompanying
its error; when the failed side's slice is nil it contributes no entries:
every fused entry's item then comes from the surviving side. -/
theorem retrieveCombine_partial_failure (topK : ℕ) (query : String) :
    (∀ vrs ve frs fe,
      retrieveCombine topK query (vrs, some ve) (frs, some fe) =
        .error ("retrieval failed: vector: " ++ ve ++ ", fts: " ++ fe)) ∧
    (∀ vrs frs fe, retrieveCombine topK query (vrs, none) (frs, some fe) =
      .ok ⟨fuseResults topK vrs frs, query⟩) ∧
    (∀ vrs ve frs, retrieveCombine topK query (vrs, some ve) (frs, none) =
      .ok ⟨fuseResults topK vrs frs, query⟩) ∧
    (∀ frs, ∀ u ∈ fuseResults topK [] frs, ∃ fr ∈ frs, u.item = fr.item) ∧
    (∀ vrs, ∀ u ∈ fuseResults topK vrs [], ∃ vr ∈ vrs, u.item = vr.item) := by
  refine ⟨fun vrs ve frs fe => rfl, fun vrs frs fe => rfl,
    fun vrs ve frs => rfl, ?_, ?_⟩
  · intro frs u hu
    obtain ⟨u₀, hu₀, rfl⟩ := mem_fuseResults hu
    rcases mem_mergedResults_items [] frs u₀ hu₀ with ⟨vr, h1, _⟩ | ⟨fr, h1, h2⟩
    · cases h1
    · exact ⟨fr, h1, h2⟩
  · intro vrs u hu
    obtain ⟨u₀, hu₀, rfl⟩ := mem_fuseResults hu
    rcases mem_mergedResults_items vrs [] u₀ hu₀ with ⟨vr, h1, h2⟩ | ⟨fr, h1, _⟩
    · exact ⟨vr, h1, h2⟩
    · cases h1

/-- Witness for C6 (amended) at concrete outcomes: both-failed yields the
combined error; a failed vector path carrying a nil slice with one FTS hit
fuses that hit alone, and the single fused entry's item comes from the
FTS side. -/
theorem retrieveCombine_partial_failure_witness :
    retrieveCombine 10 "q" ([], some "ve") (cexFTS, some "fe") =
      .error "retrieval failed: vector: ve, fts: fe" ∧
    retrieveCombine 10 "q" ([], some "ve") (cexFTS, none) =
      .ok ⟨fuseResults 10 [] cexFTS, "q"⟩ ∧
    ∃ fr ∈ cexFTS,
      (⟨cexItem, 0, "fts", 0, -20, "snip"⟩ : UnifiedResult).item = fr.item := by
  have h := retrieveCombine_partial_failure 10 "q"
  refine ⟨h.1 [] "ve" cexFTS "fe", h.2.2.1 [] "ve" cexFTS, ?_⟩
  refine h.2.2.2.1 cexFTS ⟨cexItem, 0, "fts", 0, -20, "snip"⟩ ?_
  rw [fuseResults_fts_only_eval]
  exact List.mem_singleton.2 rfl

/-- C7: `vectorSearch` always returns a nil error — a failed query
transformation falls back to the original query and failed embedding or
store-search calls are skipped — so the both-paths-failed branch of
`Retrieve` is unreachable and `Retrieve` never returns an error. -/
theorem Retrieve_never_errors (transformed : Except String (List String))
    (embed : String → Except String (List ℚ))
    (search : List ℚ → Except String (List SearchResult))
    (ftsResults : List MemoryFTSResult) (ftsErr : Option String)
    (topK : ℕ) (query : String) :
    (∃ rs, vectorSearch transformed embed search topK query = .ok rs) ∧
    (∀ e, vectorSearch (.error e) embed search topK query =
      vectorSearch (.ok [query]) embed search topK query) ∧
    ∃ resp, Retrieve transformed embed search ftsResults ftsErr topK query =
      .ok resp := by
  refine ⟨⟨_, rfl⟩, fun e => rfl, ?_⟩
  cases transformed <;> cases ftsErr <;> exact ⟨_, rfl⟩

/-- Store-visible outcome of a reindex run: ids successfully rewritten
(in place, kept regardless of other jobs' failures) and the permanently
failed ids paired with their last error (the guarded `failures` list). -/
structure ReindexOutcome where
  updated : List String
  failures : List (String × String)
deriving DecidableEq, Repr

/-- The jobs' aggregate effect: every memory runs its own retrying job
(`runReindexJob`, starting at retry counter 0); successes are recorded as
updated, exhausted jobs as failures. The concurrent jobs are independent
except for the mutex-guarded failures list, so the order of the memories
list is one valid linearization. -/
def reindexOutcome (memories : List MemoryItem)
    (attempt : MemoryItem → ℕ → Except String Unit) : ReindexOutcome :=
  memories.foldl
    (fun o m =>
      let job := runReindexJob (attempt m) 0
      if job.failed then
        { o with failures := o.failures ++ [(m.id, job.lastErr.getD "")] }
      else
        { o with updated := o.updated ++ [m.id] })
    ⟨[], []⟩

/-- One line of the aggregate error (`"- ID %s: %v"`). -/
def failureLine (f : String × String) : String :=
  "- ID " ++ f.1 ++ ": " ++ f.2

/-- The aggregate error message of `ReindexMemories`, enumerating every
failed id with its last error. -/
def aggregateError (failures : List (String × String)) : String :=
  Nat.repr failures.length ++ " memories failed to reindex:\n" ++
    String.intercalate "\n" (failures.map failureLine) ++
    "\nPlease try reindexing again later."

/-- `ReindexMemories` from retrieval.go: succeed trivially on an empty
store; otherwise run every job to completion and return the store outcome
together with `none` on full success or the aggregate error when one or
more jobs permanently failed. -/
def ReindexMemories (memories : List MemoryItem)
    (attempt : MemoryItem → ℕ → Except String Unit) :
    ReindexOutcome × Option String :=
  if memories = [] then (⟨[], []⟩, none)
  else
    let o := reindexOutcome memories attempt
    (o, if o.failures = [] then none else some (aggregateError o.failures))

lemma runReindexJob_failed_attempts (attempt : ℕ → Except String Unit) :
    ∀ n k, 5 - k ≤ n → k ≤ 5 →
      (runReindexJob attempt k).failed = true →
      (runReindexJob attempt k).attempts + k = 6 := by
  have base : ∀ hfail : (runReindexJob attempt 5).failed = true,
      (runReindexJob attempt 5).attempts + 5 = 6 := by
    intro hfail
    rcases h : attempt 5 with e | v
    · have hstep : runReindexJob attempt 5 = ⟨1, [], true, some e⟩ := by
        rw [runReindexJob]
        simp [h]
      rw [hstep]
    · have hstep : runReindexJob attempt 5 = ⟨1, [], false, none⟩ := by
        rw [runReindexJob]
        simp [h]
      rw [hstep] at hfail
      cases hfail
  intro n
  induction n with
  | zero =>
    intro k hn hk hfail
    have hk5 : k = 5 := by omega
    subst hk5
    exact base hfail
  | succ n ih =>
    intro k hn hk hfail
    by_cases hk5 : k = 5
    · subst hk5
      exact base hfail
    · have hklt : k < 5 := by omega
      rcases h : attempt k with e | v
      · have hstep : runReindexJob attempt k =
            ⟨(runReindexJob attempt (k + 1)).attempts + 1,
              (k + 1) * 2 :: (runReindexJob attempt (k + 1)).delays,
              (runReindexJob attempt (k + 1)).failed,
              (runReindexJob attempt (k + 1)).lastErr⟩ := by
          rw [runReindexJob]
          simp [h, Nat.not_le.2 hklt]
        rw [hstep] at hfail ⊢
        have h6 := ih (k + 1) (by omega) (by omega) hfail
        show (runReindexJob attempt (k + 1)).attempts + 1 + k = 6
        omega
      · have hstep : runReindexJob attempt k = ⟨1, [], false, none⟩ := by
          rw [runReindexJob]
          simp [h]
        rw [hstep] at hfail
        cases hfail

lemma reindexOutcome_mem (memories : List MemoryItem)
    (attempt : MemoryItem → ℕ → Except String Unit) :
    ∀ m ∈ memories,
      ((runReindexJob (attempt m) 0).failed = false →
        m.id ∈ (reindexOutcome memories attempt).updated) ∧
      ((runReindexJob (attempt m) 0).failed = true →
        (m.id, (runReindexJob (attempt m) 0).lastErr.getD "") ∈
          (reindexOutcome memories attempt).failures) := by
  have gen : ∀ (l : List MemoryItem) (o : ReindexOutcome),
      ∀ m ∈ l,
        ((runReindexJob (attempt m) 0).failed = false →
          m.id ∈ (l.foldl
            (fun o m =>
              let job := runReindexJob (attempt m) 0
              if job.failed then
                { o with failures :=
                    o.failures ++ [(m.id, job.lastErr.getD "")] }
              else { o with updated := o.updated ++ [m.id] }) o).updated) ∧
        ((runReindexJob (attempt m) 0).failed = true →
          (m.id, (runReindexJob (attempt m) 0).lastErr.getD "") ∈
            (l.foldl
              (fun o m =>
                let job := runReindexJob (attempt m) 0
                if job.failed then
                  { o with failures :=
                      o.failures ++ [(m.id, job.lastErr.getD "")] }
                else { o with updated := o.updated ++ [m.id] }) o).failures) := by
    intro l
    induction l with
    | nil =>
      intro o m hm
      cases hm
    | cons m0 rest ih =>
      have hmono : ∀ (l' : List MemoryItem) (o : ReindexOutcome),
          (∀ x ∈ o.updated, x ∈ (l'.foldl
            (fun o m =>
              let job := runReindexJob (attempt m) 0
              if job.failed then
                { o with failures :=
                    o.failures ++ [(m.id, job.lastErr.getD "")] }
              else { o with updated := o.updated ++ [m.id] }) o).updated) ∧
          ∀ x ∈ o.failures, x ∈ (l'.foldl
            (fun o m =>
              let job := runReindexJob (attempt m) 0
              if job.failed then
                { o with failures :=
                    o.failures ++ [(m.id, job.lastErr.getD "")] }
              else { o with updated := o.updated ++ [m.id] }) o).failures := by
        intro l'
        induction l' with
        | nil => exact fun o => ⟨fun x hx => hx, fun x hx => hx⟩
        | cons y ys ihy =>
          intro o
          constructor
          · intro x hx
            rw [List.foldl_cons]
            refine (ihy _).1 x ?_
            dsimp only
            split <;> simp [hx]
          · intro x hx
            rw [List.foldl_cons]
            refine (ihy _).2 x ?_
            dsimp only
            split <;> simp [hx]
      intro o m hm
      rcases List.mem_cons.1 hm with rfl | hmr
      · constructor
        · intro hok
          rw [List.foldl_cons]
          refine (hmono rest _).1 m.id ?_
          dsimp only
          rw [hok]
          simp
        · intro hbad
          rw [List.foldl_cons]
          refine (hmono rest _).2 _ ?_
          dsimp only
          rw [hbad]
          simp
      · exact ih _ m hmr
  intro m hm
  exact gen memories ⟨[], []⟩ m hm

/-- C8: `ReindexMemories` returns success with no effect on an empty
store; otherwise every job either succeeds (its id is recorded as updated,
and remains so regardless of other jobs — partial success is preserved)
or exhausts its retries after exactly 6 attempts (its id and last error
are recorded in the failures list); the returned error is `none` iff no
job permanently failed, and otherwise it is the single aggregate error
enumerating each failed item id with its last error. -/
theorem ReindexMemories_spec (memories : List MemoryItem)
    (attempt : MemoryItem → ℕ → Except String Unit) :
    (memories = [] → ReindexMemories memories attempt = (⟨[], []⟩, none)) ∧
    (∀ m ∈ memories,
      ((runReindexJob (attempt m) 0).failed = false →
        m.id ∈ (ReindexMemories memories attempt).1.updated) ∧
      ((runReindexJob (attempt m) 0).failed = true →
        (m.id, (runReindexJob (attempt m) 0).lastErr.getD "") ∈
          (ReindexMemories memories attempt).1.failures ∧
        (runReindexJob (attempt m) 0).attempts = 6)) ∧
    ((ReindexMemories memories attempt).2 = none ↔
      (ReindexMemories memories attempt).1.failures = []) ∧
    ((ReindexMemories memories attempt).1.failures ≠ [] →
      (ReindexMemories memories attempt).2 =
        some (aggregateError (ReindexMemories memories attempt).1.failures)) := by
  refine ⟨?_, ?_, ?_, ?_⟩
  · intro h
    rw [ReindexMemories, if_pos h]
  · intro m hm
    have hne : memories ≠ [] := by
      intro h
      rw [h] at hm
      cases hm
    have h1 : (ReindexMemories memories attempt).1 =
        reindexOutcome memories attempt := by
      rw [ReindexMemories, if_neg hne]
    rw [h1]
    have hmem := reindexOutcome_mem memories attempt m hm
    refine ⟨hmem.1, fun hfail => ⟨hmem.2 hfail, ?_⟩⟩
    have := runReindexJob_failed_attempts (attempt m) 5 0 (by omega)
      (by omega) hfail
    omega
  · by_cases hne : memories = []
    · rw [ReindexMemories, if_pos hne]
      simp
    · rw [ReindexMemories, if_neg hne]
      by_cases hfail : (reindexOutcome memories attempt).failures = []
      · simp [hfail]
      · simp [hfail]
  · intro hfails
    by_cases hne : memories = []
    · rw [ReindexMemories, if_pos hne] at hfails
      simp at hfails
    · rw [ReindexMemories, if_neg hne] at hfails ⊢
      simp only at hfails ⊢
      rw [if_neg hfails]

/-- Memory that reindexes successfully in the C8 witness. -/
def reOk : MemoryItem := ⟨"ok1", "", [], []⟩

/-- Memory whose embedding always fails in the C8 witness. -/
def reBad : MemoryItem := ⟨"bad1", "", [], []⟩

/-- Attempt oracle of the C8 witness: `reBad` always fails with "boom",
everything else succeeds immediately. -/
def wAttempt (m : MemoryItem) : ℕ → Except String Unit :=
  fun _ => if m.id = "bad1" then .error "boom" else .ok ()

/-- Witness for C8: on a two-memory store where one job always fails, the
successful id is recorded as updated (partial success preserved), the
failing id appears in the failures list with its last error after exactly
6 attempts, the aggregate error is returned, and the empty store yields
`none`. -/
theorem ReindexMemories_spec_witness :
    reOk.id ∈ (ReindexMemories [reOk, reBad] wAttempt).1.updated ∧
    (reBad.id, "boom") ∈ (ReindexMemories [reOk, reBad] wAttempt).1.failures ∧
    (runReindexJob (wAttempt reBad) 0).attempts = 6 ∧
    ReindexMemories [] wAttempt = (⟨[], []⟩, none) := by
  have hbad : wAttempt reBad = fun _ => .error "boom" := by
    funext k
    simp [wAttempt, reBad]
  have hbadrun : runReindexJob (wAttempt reBad) 0 =
      ⟨6, [2, 4, 6, 8, 10], true, some "boom"⟩ := by
    rw [hbad, runReindexJob_const_error]
  have hokrun : runReindexJob (wAttempt reOk) 0 = ⟨1, [], false, none⟩ := by
    rw [runReindexJob]
    simp [wAttempt, reOk]
  have h := ReindexMemories_spec [reOk, reBad] wAttempt
  have hmemOk := (h.2.1 reOk (by simp)).1 (by rw [hokrun])
  have hmemBad := (h.2.1 reBad (by simp)).2 (by rw [hbadrun])
  refine ⟨hmemOk, ?_, ?_, (ReindexMemories_spec [] wAttempt).1 rfl⟩
  · have := hmemBad.1
    rw [hbadrun] at this
    exact this
  · rw [hbadrun]

end Gomor
